import Mathlib

/-!
Verification of the Mastermind solver of `mastermind.py`.

Shallow embedding of the code-breaking core of `mastermind.py`:

* the alphabet `COLORS = 'ABCDEF'` is modelled as `Fin 6` (`A = 0`, …, `F = 5`);
* a code is a list of symbols (`itertools.product` tuples and 4-character
  strings both read as such lists, symbol by symbol);
* `compute_answer` is the two-pass black/white peg scorer;
* `ComputerCodeBreaker` carries the `_all_codes` list, the candidate set `_S`
  (a Python `set`, modelled as a `Finset`) and `_last_guess`;
* `ComputerCodeBreaker.guess` filters `_S` and runs the minimax selection loop.
  Places where the Python code raises (calling `guess` before `initial_guess`,
  a `max()` over an empty dict when the filtered set is empty, an out-of-range
  `[0]` index) are modelled by returning `none` for the emitted guess, with the
  state updated exactly as far as the Python code got before raising.
-/

namespace Mastermind

/-- A symbol of the alphabet `COLORS = 'ABCDEF'`, modelled as `Fin 6`. -/
abbrev Symbol := Fin 6

/-- A code: an ordered sequence of symbols (length 4 in the reference instance). -/
abbrev Code := List Symbol

/-- Feedback: the `(black, white)` peg-count pair returned by `compute_answer`. -/
abbrev Feedback := Nat × Nat

/-- The alphabet `COLORS`, in its fixed order. -/
def COLORS : List Symbol := [0, 1, 2, 3, 4, 5]

/-- The function modelling `itertools.product(COLORS, repeat=n)`: all length-`n`
codes, enumerated with the first coordinate varying slowest (lexicographic
order). -/
def productRepeat : Nat → List Code
  | 0 => [[]]
  | n + 1 => COLORS.flatMap fun s => (productRepeat n).map fun t => s :: t

/-- The Universe `list(itertools.product(COLORS, repeat=4))` of 1296 codes. -/
def allCodes : List Code := productRepeat 4

/-- First pass of `compute_answer` (lines 250-255): count the exactly matching
positions (`black`) and collect the symbols at non-matching positions into
`remained_guess` and `remained_code`, preserving order of appearance.  The
Python loop enumerates `guess` and indexes `code`; a `code` shorter than
`guess` would raise `IndexError` (the second arm below), a longer one has its
tail ignored, exactly as here.  All claims use equal-length codes. -/
def pass1 : Code → Code → Nat × Code × Code
  | [], _ => (0, [], [])
  | _ :: _, [] => (0, [], [])
  | g :: gs, c :: cs =>
    let r := pass1 gs cs
    if g = c then (r.1 + 1, r.2.1, r.2.2)
    else (r.1, g :: r.2.1, c :: r.2.2)

/-- Second pass of `compute_answer` (lines 256-259): walk `remained_guess` in
order; each symbol still present in `remained_code` scores one white peg and
removes one occurrence (Python's `list.remove`, i.e. `List.erase`). -/
def pass2White : Code → Code → Nat
  | [], _ => 0
  | g :: gs, rc =>
    if g ∈ rc then 1 + pass2White gs (rc.erase g)
    else pass2White gs rc

/-- The scorer `compute_answer(guess, code)` (lines 239-260): `(black, white)` pegs. -/
def compute_answer (guess code : Code) : Feedback :=
  let r := pass1 guess code
  (r.1, pass2White r.2.1 r.2.2)

/-- The solver state: `_all_codes`, the candidate set `_S`, and `_last_guess`
(`None` before `initial_guess`). -/
structure ComputerCodeBreaker where
  all_codes : List Code
  S : Finset Code
  last_guess : Option Code

/-- The constructor `ComputerCodeBreaker.__init__` (lines 97-100). -/
def ComputerCodeBreaker.init : ComputerCodeBreaker :=
  { all_codes := allCodes, S := allCodes.toFinset, last_guess := none }

/-- The fixed opening guess `'AABB'`. -/
def AABB : Code := [0, 0, 1, 1]

/-- Method `initial_guess` (lines 102-104): emit `'AABB'` and record it. -/
def ComputerCodeBreaker.initial_guess (b : ComputerCodeBreaker) :
    Code × ComputerCodeBreaker :=
  (AABB, { b with last_guess := some AABB })

/-- Value `hit_count[a]` after the inner loop (lines 116-119): the number of
candidates in `S` whose feedback against `g` is `a`. -/
def hitCount (S : Finset Code) (g : Code) (a : Feedback) : Nat :=
  (S.filter fun c => compute_answer g c = a).card

/-- Value `max(hit_count.values())` (line 120): the largest bucket size, the
maximum being taken over the feedback values actually produced by some
candidate. -/
def maxHit (S : Finset Code) (g : Code) : Nat :=
  (S.image (compute_answer g)).sup (hitCount S g)

/-- Score `len(self._S) - max(hit_count.values())` (line 120). -/
def scoreOf (S : Finset Code) (g : Code) : Nat :=
  S.card - maxHit S g

/-- One iteration of the minimax loop (lines 115-125): update
`(max_score, max_score_guesses)` for `any_code`.  The two separate `if`
statements of the Python code are kept as they are: after a strict
improvement the second test also fires, so the new best code is appended
twice. -/
def minimaxStep (S : Finset Code) (acc : Nat × List Code) (any_code : Code) :
    Nat × List Code :=
  let score := scoreOf S any_code
  let acc1 := if acc.1 < score then (score, [any_code]) else acc
  if score = acc1.1 then (acc1.1, acc1.2 ++ [any_code]) else acc1

/-- The whole minimax loop: fold `minimaxStep` over `_all_codes` starting from
`max_score = 0`, `max_score_guesses = []`. -/
def minimaxGuesses (S : Finset Code) (codes : List Code) : Nat × List Code :=
  codes.foldl (minimaxStep S) (0, [])

/-- Lines 127-132: prefer max-score codes that are in `S`; `none` models the
`IndexError` of `max_score_guesses[0]` on an empty list. -/
def selectGuess (S : Finset Code) (codes : List Code) : Option Code :=
  let l := (minimaxGuesses S codes).2
  let in_s := l.filter fun g => decide (g ∈ S)
  if in_s.isEmpty then l.head? else in_s.head?

/-- Method `guess(answer)` (lines 106-135).  Returns the updated state and the emitted
guess; `none` models an exception:

* `last_guess = none`: `compute_answer(None, c)` raises `TypeError` while the
  filter is being forced, before `_S` is reassigned — state unchanged;
* the filtered set is empty: `max()` of an empty dict raises `ValueError`, but
  only after `_S` was already replaced by the empty set;
* `selectGuess` finds no code (empty `_all_codes`): `IndexError`. -/
def ComputerCodeBreaker.guess (b : ComputerCodeBreaker) (answer : Feedback) :
    ComputerCodeBreaker × Option Code :=
  match b.last_guess with
  | none => (b, none)
  | some lg =>
    let S' := b.S.filter fun c => compute_answer lg c = answer
    if S' = ∅ then ({ b with S := S' }, none)
    else
      match selectGuess S' b.all_codes with
      | none => ({ b with S := S' }, none)
      | some g => ({ b with S := S', last_guess := some g }, some g)

/-- Running a session: feed a list of feedback values through `guess`,
keeping only the evolving state. -/
def runGuesses : ComputerCodeBreaker → List Feedback → ComputerCodeBreaker
  | b, [] => b
  | b, a :: rest => runGuesses (b.guess a).1 rest

/-- Truthful feedback for a fixed secret: along the run, every supplied answer
is `compute_answer` of the solver's current last guess against the secret. -/
def truthfulRun (secret : Code) : ComputerCodeBreaker → List Feedback → Prop
  | _, [] => True
  | b, a :: rest =>
    (∀ lg, b.last_guess = some lg → a = compute_answer lg secret) ∧
      truthfulRun secret (b.guess a).1 rest

example : compute_answer [0, 0, 1, 1] [0, 0, 0, 0] = (2, 0) := by decide
example : compute_answer [0, 1, 2, 3] [3, 2, 1, 0] = (0, 4) := by decide
example : compute_answer [0, 0, 1, 1] [1, 2, 3, 5] = (0, 1) := by decide
example : compute_answer AABB AABB = (4, 0) := by decide
set_option maxRecDepth 100000 in
example : allCodes.length = 1296 := by decide

/-! Basic properties of the two passes of `compute_answer`. -/

theorem pass1_self (a : Code) : pass1 a a = (a.length, [], []) := by
  induction a with
  | nil => rfl
  | cons x xs ih => simp [pass1, ih]

theorem pass1_black_le (g : Code) : ∀ c : Code, (pass1 g c).1 ≤ g.length := by
  induction g with
  | nil => intro c; simp [pass1]
  | cons x xs ih =>
    intro c
    cases c with
    | nil => simp [pass1]
    | cons y ys =>
      by_cases h : x = y
      · simp only [pass1, if_pos h, List.length_cons]
        have := ih ys
        omega
      · simp only [pass1, if_neg h, List.length_cons]
        have := ih ys
        omega

theorem pass1_lengths (g : Code) : ∀ c : Code, g.length = c.length →
    (pass1 g c).1 + (pass1 g c).2.1.length = g.length ∧
      (pass1 g c).2.1.length = (pass1 g c).2.2.length := by
  induction g with
  | nil =>
    intro c h
    simp [pass1]
  | cons x xs ih =>
    intro c h
    cases c with
    | nil => simp at h
    | cons y ys =>
      have hlen : xs.length = ys.length := by simpa using h
      have := ih ys hlen
      by_cases hxy : x = y
      · simp only [pass1, if_pos hxy, List.length_cons]
        omega
      · simp only [pass1, if_neg hxy, List.length_cons]
        omega

theorem pass2White_le (rg : Code) : ∀ rc : Code, pass2White rg rc ≤ rg.length := by
  induction rg with
  | nil => intro rc; simp [pass2White]
  | cons x xs ih =>
    intro rc
    by_cases h : x ∈ rc
    · simp only [pass2White, if_pos h, List.length_cons]
      have := ih (rc.erase x)
      omega
    · simp only [pass2White, if_neg h, List.length_cons]
      have := ih rc
      omega

theorem pass1_eq_of_black (g : Code) : ∀ c : Code, g.length = c.length →
    (pass1 g c).1 = g.length → g = c := by
  induction g with
  | nil =>
    intro c h _
    cases c with
    | nil => rfl
    | cons y ys => simp at h
  | cons x xs ih =>
    intro c h hb
    cases c with
    | nil => simp at h
    | cons y ys =>
      have hlen : xs.length = ys.length := by simpa using h
      by_cases hxy : x = y
      · subst hxy
        simp only [pass1, List.length_cons, if_true, eq_self_iff_true] at hb
        rw [ih ys hlen (by omega)]
      · exfalso
        simp only [pass1, if_neg hxy, List.length_cons] at hb
        have := pass1_black_le xs ys
        omega

theorem pass2White_eq_inter_card (rg : Code) : ∀ rc : Code,
    pass2White rg rc =
      Multiset.card ((rg : Multiset Symbol) ∩ (rc : Multiset Symbol)) := by
  induction rg with
  | nil => intro rc; simp [pass2White]
  | cons x xs ih =>
    intro rc
    by_cases h : x ∈ rc
    · have hmem : x ∈ (rc : Multiset Symbol) := by simpa using h
      have hstep : ((x :: xs : List Symbol) : Multiset Symbol) ∩ (rc : Multiset Symbol)
          = x ::ₘ ((xs : Multiset Symbol) ∩ ((rc : Multiset Symbol).erase x)) := by
        simpa using Multiset.cons_inter_of_pos (xs : Multiset Symbol) hmem
      rw [pass2White, if_pos h, hstep, Multiset.card_cons, ih (rc.erase x),
        ← Multiset.coe_erase]
      omega
    · have hmem : x ∉ (rc : Multiset Symbol) := by simpa using h
      have hstep : ((x :: xs : List Symbol) : Multiset Symbol) ∩ (rc : Multiset Symbol)
          = (xs : Multiset Symbol) ∩ (rc : Multiset Symbol) := by
        simpa using Multiset.cons_inter_of_neg (xs : Multiset Symbol) hmem
      rw [pass2White, if_neg h, hstep, ih rc]

theorem inter_card_eq_sum_min (rg rc : Code) :
    Multiset.card ((rg : Multiset Symbol) ∩ (rc : Multiset Symbol)) =
      ∑ s : Symbol, min (rg.count s) (rc.count s) := by
  rw [← @Multiset.sum_count_eq_card Symbol _ Finset.univ
    ((rg : Multiset Symbol) ∩ (rc : Multiset Symbol)) (fun a _ => Finset.mem_univ a)]
  refine Finset.sum_congr rfl fun s _ => ?_
  rw [Multiset.count_inter]
  simp

/-- Claim C7: for every pair of codes of equal length `N`, the feedback
`(exact, partial)` returned by `compute_answer` satisfies `exact ≥ 0`,
`partial ≥ 0` and `exact + partial ≤ N`. -/
theorem C7_feedback_bounds (guess code : Code) (N : Nat)
    (h1 : guess.length = N) (h2 : code.length = N) :
    0 ≤ (compute_answer guess code).1 ∧ 0 ≤ (compute_answer guess code).2 ∧
      (compute_answer guess code).1 + (compute_answer guess code).2 ≤ N := by
  refine ⟨Nat.zero_le _, Nat.zero_le _, ?_⟩
  have hlen := pass1_lengths guess code (by omega)
  have hle := pass2White_le (pass1 guess code).2.1 (pass1 guess code).2.2
  simp only [compute_answer]
  omega

theorem C7_feedback_bounds_witness :
    ([0, 1, 2, 2] : Code).length = 4 ∧ ([2, 2, 0, 1] : Code).length = 4 ∧
      (0 ≤ (compute_answer [0, 1, 2, 2] [2, 2, 0, 1]).1 ∧
        0 ≤ (compute_answer [0, 1, 2, 2] [2, 2, 0, 1]).2 ∧
        (compute_answer [0, 1, 2, 2] [2, 2, 0, 1]).1 +
          (compute_answer [0, 1, 2, 2] [2, 2, 0, 1]).2 ≤ 4) :=
  ⟨by decide, by decide,
    C7_feedback_bounds [0, 1, 2, 2] [2, 2, 0, 1] 4 (by decide) (by decide)⟩

theorem compute_answer_self (a : Code) : compute_answer a a = (a.length, 0) := by
  simp [compute_answer, pass1_self, pass2White]

/-- Claim C8: for every code `a`, `compute_answer(a, a) = (length a, 0)`; in
particular in the reference instance (length 4) it is `(4, 0)`. -/
theorem C8_self_feedback (a : Code) :
    compute_answer a a = (a.length, 0) ∧
      (a.length = 4 → compute_answer a a = (4, 0)) :=
  ⟨compute_answer_self a, fun h4 => by rw [compute_answer_self a, h4]⟩

theorem C8_self_feedback_witness :
    compute_answer AABB AABB = (AABB.length, 0) ∧
      (AABB.length = 4 → compute_answer AABB AABB = (4, 0)) :=
  C8_self_feedback AABB

/-- Claim C9: the second pass of `compute_answer` (remove-one list removal over
the residual lists) computes the same `partial` count as the frequency-count
(multiset) formulation: `partial` equals the sum, over all symbols `s`, of
`min(count of s in remained_guess, count of s in remained_code)`. -/
theorem C9_second_pass_freq_equiv (g c : Code) (_h : g.length = c.length) :
    (compute_answer g c).2 =
      ∑ s : Symbol,
        min (((pass1 g c).2.1).count s) (((pass1 g c).2.2).count s) := by
  simp only [compute_answer]
  rw [pass2White_eq_inter_card, inter_card_eq_sum_min]

theorem C9_second_pass_freq_equiv_witness :
    ([0, 0, 1, 1] : Code).length = ([0, 1, 0, 0] : Code).length ∧
      (compute_answer [0, 0, 1, 1] [0, 1, 0, 0]).2 =
        ∑ s : Symbol,
          min (((pass1 [0, 0, 1, 1] [0, 1, 0, 0]).2.1).count s)
            (((pass1 [0, 0, 1, 1] [0, 1, 0, 0]).2.2).count s) :=
  ⟨by decide, C9_second_pass_freq_equiv [0, 0, 1, 1] [0, 1, 0, 0] (by decide)⟩

/-- Claim C10: for length-4 codes, `compute_answer(guess, code) = (4, 0)` holds
if and only if `guess = code`, so the game loop's stop condition fires exactly
when the guess equals the secret. -/
theorem C10_perfect_iff_eq (g c : Code) (h1 : g.length = 4) (h2 : c.length = 4) :
    compute_answer g c = (4, 0) ↔ g = c := by
  constructor
  · intro h
    have hb : (pass1 g c).1 = g.length := by
      have : (compute_answer g c).1 = 4 := by rw [h]
      simpa [compute_answer, h1] using this
    exact pass1_eq_of_black g c (by omega) hb
  · intro h
    subst h
    rw [compute_answer_self g, h1]

theorem C10_perfect_iff_eq_witness :
    ([0, 1, 2, 3] : Code).length = 4 ∧ ([0, 1, 2, 4] : Code).length = 4 ∧
      (compute_answer [0, 1, 2, 3] [0, 1, 2, 4] = (4, 0) ↔
        ([0, 1, 2, 3] : Code) = [0, 1, 2, 4]) :=
  ⟨by decide, by decide,
    C10_perfect_iff_eq [0, 1, 2, 3] [0, 1, 2, 4] (by decide) (by decide)⟩

/-! Unfolding lemmas for `ComputerCodeBreaker.guess`. -/

theorem guess_none_eq (ac : List Code) (S0 : Finset Code) (answer : Feedback) :
    ComputerCodeBreaker.guess ⟨ac, S0, none⟩ answer = (⟨ac, S0, none⟩, none) := rfl

theorem guess_some_eq (ac : List Code) (S0 : Finset Code) (lg : Code)
    (answer : Feedback) :
    ComputerCodeBreaker.guess ⟨ac, S0, some lg⟩ answer =
      (let S' := S0.filter fun c => compute_answer lg c = answer
       if S' = ∅ then (⟨ac, S', some lg⟩, none)
       else
         match selectGuess S' ac with
         | none => (⟨ac, S', some lg⟩, none)
         | some g => (⟨ac, S', some g⟩, some g)) := rfl

theorem guess_eq_of_none (b : ComputerCodeBreaker) (answer : Feedback)
    (h : b.last_guess = none) : b.guess answer = (b, none) := by
  obtain ⟨ac, S0, last⟩ := b
  simp only at h
  subst h
  exact guess_none_eq ac S0 answer

theorem guess_S_eq (b : ComputerCodeBreaker) (answer : Feedback) (lg : Code)
    (h : b.last_guess = some lg) :
    (b.guess answer).1.S = b.S.filter fun c => compute_answer lg c = answer := by
  obtain ⟨ac, S0, last⟩ := b
  simp only at h
  subst h
  rw [guess_some_eq]
  simp only
  split
  · rfl
  · split <;> rfl

/-- Claim C2: each `guess(answer)` call (with a recorded last guess) replaces
the stored candidate set with exactly the subset of the previous one whose
members `c` satisfy `compute_answer(last_guess, c) = answer`; no other code is
ever added. -/
theorem C2_filter_subset (b : ComputerCodeBreaker) (answer : Feedback) (lg : Code)
    (h : b.last_guess = some lg) :
    (b.guess answer).1.S = (b.S.filter fun c => compute_answer lg c = answer) ∧
      ∀ c : Code, c ∈ (b.guess answer).1.S ↔
        c ∈ b.S ∧ compute_answer lg c = answer := by
  have hS := guess_S_eq b answer lg h
  refine ⟨hS, fun c => ?_⟩
  rw [hS]
  simp [Finset.mem_filter]

theorem C2_filter_subset_witness :
    (ComputerCodeBreaker.last_guess ⟨[AABB], {AABB, ([2, 2, 3, 3] : Code)}, some AABB⟩ =
        some AABB) ∧
      ((ComputerCodeBreaker.guess ⟨[AABB], {AABB, ([2, 2, 3, 3] : Code)}, some AABB⟩
            (0, 0)).1.S =
          (({AABB, ([2, 2, 3, 3] : Code)} : Finset Code).filter fun c => compute_answer AABB c = (0, 0)) ∧
        ∀ c : Code,
          c ∈ (ComputerCodeBreaker.guess ⟨[AABB], {AABB, ([2, 2, 3, 3] : Code)}, some AABB⟩
            (0, 0)).1.S ↔
            c ∈ ({AABB, ([2, 2, 3, 3] : Code)} : Finset Code) ∧
              compute_answer AABB c = (0, 0)) :=
  ⟨rfl, C2_filter_subset ⟨[AABB], {AABB, ([2, 2, 3, 3] : Code)}, some AABB⟩ (0, 0) AABB rfl⟩

/-! Per-call monotonicity and preservation of the secret. -/

theorem guess_card_le (b : ComputerCodeBreaker) (answer : Feedback) :
    (b.guess answer).1.S.card ≤ b.S.card := by
  cases hl : b.last_guess with
  | none => rw [guess_eq_of_none b answer hl]
  | some lg =>
    rw [guess_S_eq b answer lg hl]
    exact Finset.card_filter_le _ _

/-- Claim C3: over any session and any sequence of `guess()` calls, the
candidate-set size never grows, and under truthful feedback for a fixed secret
the secret remains a member of the candidate set after every call. -/
theorem C3_monotone_member (b : ComputerCodeBreaker) (answers : List Feedback)
    (secret : Code) :
    (runGuesses b answers).S.card ≤ b.S.card ∧
      (truthfulRun secret b answers → secret ∈ b.S →
        secret ∈ (runGuesses b answers).S) := by
  induction answers generalizing b with
  | nil => exact ⟨le_refl _, fun _ h => h⟩
  | cons a rest ih =>
    simp only [runGuesses, truthfulRun]
    constructor
    · exact le_trans (ih (b.guess a).1).1 (guess_card_le b a)
    · rintro ⟨h1, h2⟩ hmem
      refine (ih (b.guess a).1).2 h2 ?_
      cases hl : b.last_guess with
      | none =>
        rw [guess_eq_of_none b a hl]
        exact hmem
      | some lg =>
        rw [guess_S_eq b a lg hl]
        exact Finset.mem_filter.mpr ⟨hmem, (h1 lg hl).symm⟩

theorem C3_monotone_member_witness :
    (runGuesses ⟨[AABB], {AABB, ([2, 2, 3, 3] : Code)}, some AABB⟩ [(0, 0)]).S.card ≤
        (ComputerCodeBreaker.S ⟨[AABB], {AABB, ([2, 2, 3, 3] : Code)}, some AABB⟩).card ∧
      ([2, 2, 3, 3] : Code) ∈
        (runGuesses ⟨[AABB], {AABB, ([2, 2, 3, 3] : Code)}, some AABB⟩ [(0, 0)]).S := by
  have h := C3_monotone_member ⟨[AABB], {AABB, ([2, 2, 3, 3] : Code)}, some AABB⟩
    [(0, 0)] [2, 2, 3, 3]
  refine ⟨h.1, h.2 ?_ (by decide)⟩
  simp only [truthfulRun]
  refine ⟨?_, trivial⟩
  intro lg hlg
  injection hlg with hlg
  subst hlg
  decide

/-! Properties of the Universe enumeration. -/

theorem mem_COLORS (s : Symbol) : s ∈ COLORS := by
  have h : ∀ s : Symbol, s ∈ COLORS := by decide
  exact h s

theorem COLORS_nodup : COLORS.Nodup := by decide

theorem mem_productRepeat (n : Nat) (x : Code) :
    x ∈ productRepeat n ↔ x.length = n := by
  induction n generalizing x with
  | zero => simp [productRepeat, List.length_eq_zero]
  | succ n ih =>
    simp only [productRepeat, List.mem_flatMap, List.mem_map]
    constructor
    · rintro ⟨s, _, t, ht, rfl⟩
      simp [(ih t).1 ht]
    · intro hlen
      cases x with
      | nil => simp at hlen
      | cons s t =>
        exact ⟨s, mem_COLORS s, t, (ih t).2 (by simpa using hlen), rfl⟩

theorem nodup_productRepeat (n : Nat) : (productRepeat n).Nodup := by
  induction n with
  | zero => simp [productRepeat]
  | succ n ih =>
    rw [productRepeat]
    refine List.nodup_flatMap.mpr ⟨fun s _ => ih.map fun t t' h => by injection h, ?_⟩
    refine List.Pairwise.imp ?_ COLORS_nodup
    intro s s' hss x hx hx'
    obtain ⟨t, _, rfl⟩ := List.mem_map.mp hx
    obtain ⟨t', _, ht'⟩ := List.mem_map.mp hx'
    exact hss (by injection ht'.symm)

theorem allCodes_nodup : allCodes.Nodup := nodup_productRepeat 4

theorem mem_allCodes (x : Code) : x ∈ allCodes ↔ x.length = 4 :=
  mem_productRepeat 4 x

theorem allCodes_ne_nil : allCodes ≠ [] := by
  intro h
  have hm := (mem_allCodes AABB).2 (by decide)
  rw [h] at hm
  exact absurd hm (List.not_mem_nil _)

theorem filter_eq_self_singleton (c : Code) (l : List Code) (hn : l.Nodup)
    (hc : c ∈ l) : (l.filter fun u => decide (u = c)) = [c] := by
  induction l with
  | nil => cases hc
  | cons a t ih =>
    by_cases hac : a = c
    · subst hac
      have hnott : a ∉ t := (List.nodup_cons.mp hn).1
      have hft : (t.filter fun u => decide (u = a)) = [] := by
        refine List.filter_eq_nil_iff.mpr fun u hu => ?_
        simp only [decide_eq_true_eq]
        rintro rfl
        exact hnott hu
      simp [List.filter_cons, hft]
    · have hct : c ∈ t := by
        rcases List.mem_cons.mp hc with h | h
        · exact absurd h.symm hac
        · exact h
      simp [List.filter_cons, hac, ih (List.nodup_cons.mp hn).2 hct]

/-! Characterisation of the minimax loop. -/

theorem minimaxStep_eq (S : Finset Code) (acc : Nat × List Code) (c : Code) :
    minimaxStep S acc c =
      if acc.1 < scoreOf S c then (scoreOf S c, [c, c])
      else if scoreOf S c = acc.1 then (acc.1, acc.2 ++ [c]) else acc := by
  by_cases h1 : acc.1 < scoreOf S c
  · simp [minimaxStep, h1]
  · simp [minimaxStep, h1]

theorem minimaxGuesses_append (S : Finset Code) (l : List Code) (c : Code) :
    minimaxGuesses S (l ++ [c]) = minimaxStep S (minimaxGuesses S l) c := by
  simp [minimaxGuesses, List.foldl_append]

/-- Invariant of the minimax loop: the tracked `max_score` bounds every score
seen so far and is either `0` or attained; `max_score_guesses` is the list of
maximal-score codes in enumeration order, except that the code that last
strictly improved the maximum occurs twice at its head. -/
theorem minimaxGuesses_spec (S : Finset Code) (codes : List Code) :
    (∀ u ∈ codes, scoreOf S u ≤ (minimaxGuesses S codes).1) ∧
      ((minimaxGuesses S codes).1 = 0 ∨
        ∃ u ∈ codes, scoreOf S u = (minimaxGuesses S codes).1) ∧
      ((minimaxGuesses S codes).2 =
          (codes.filter fun u => decide (scoreOf S u = (minimaxGuesses S codes).1)) ∨
        ∃ h t,
          (codes.filter fun u => decide (scoreOf S u = (minimaxGuesses S codes).1)) =
              h :: t ∧
            (minimaxGuesses S codes).2 = h :: h :: t) ∧
      (codes ≠ [] →
        (codes.filter fun u => decide (scoreOf S u = (minimaxGuesses S codes).1)) ≠ []) := by
  induction codes using List.reverseRecOn with
  | nil =>
    exact ⟨by simp, Or.inl rfl, Or.inl (by simp [minimaxGuesses]), by simp⟩
  | append_singleton l c ih =>
    obtain ⟨ihb, iha, ihd, ihne⟩ := ih
    rw [minimaxGuesses_append, minimaxStep_eq]
    rcases Nat.lt_trichotomy (minimaxGuesses S l).1 (scoreOf S c) with hlt | heq | hgt
    · -- strict improvement: the maximum becomes `scoreOf S c`
      rw [if_pos hlt]
      have hfl : (l.filter fun u => decide (scoreOf S u = scoreOf S c)) = [] := by
        refine List.filter_eq_nil_iff.mpr fun u hu => ?_
        simp only [decide_eq_true_eq]
        have := ihb u hu
        omega
      have hfc : ((l ++ [c]).filter fun u => decide (scoreOf S u = scoreOf S c)) = [c] := by
        rw [List.filter_append, hfl]
        simp
      refine ⟨?_, Or.inr ⟨c, by simp, rfl⟩, Or.inr ⟨c, [], by simpa using hfc, rfl⟩,
        fun _ => by simp [hfc]⟩
      intro u hu
      rcases List.mem_append.mp hu with hu | hu
      · exact le_of_lt (lt_of_le_of_lt (ihb u hu) hlt)
      · rw [List.mem_singleton.mp hu]
    · -- the score ties the current maximum: the code is appended
      rw [if_neg (by omega), if_pos heq.symm]
      have hfc : ((l ++ [c]).filter fun u => decide (scoreOf S u = (minimaxGuesses S l).1)) =
          (l.filter fun u => decide (scoreOf S u = (minimaxGuesses S l).1)) ++ [c] := by
        rw [List.filter_append]
        simp [heq.symm]
      refine ⟨?_, Or.inr ⟨c, by simp, heq.symm⟩, ?_, fun _ => by simp [hfc]⟩
      · intro u hu
        rcases List.mem_append.mp hu with hu | hu
        · exact ihb u hu
        · rw [List.mem_singleton.mp hu]
          omega
      · rcases ihd with ihd | ⟨h, t, hft, hl2⟩
        · exact Or.inl (by rw [hfc, ihd])
        · exact Or.inr ⟨h, t ++ [c], by rw [hfc, hft]; rfl, by rw [hl2]; rfl⟩
    · -- the score is below the current maximum: nothing changes
      rw [if_neg (by omega), if_neg (by omega)]
      have hlne : l ≠ [] := by
        rintro rfl
        simp [minimaxGuesses] at hgt
      have hne2 : ¬scoreOf S c = (minimaxGuesses S l).1 := by omega
      have hfc : ((l ++ [c]).filter fun u => decide (scoreOf S u = (minimaxGuesses S l).1)) =
          l.filter fun u => decide (scoreOf S u = (minimaxGuesses S l).1) := by
        rw [List.filter_append]
        simp [hne2]
      refine ⟨?_, ?_, by rw [hfc]; exact ihd, fun _ => by rw [hfc]; exact ihne hlne⟩
      · intro u hu
        rcases List.mem_append.mp hu with hu | hu
        · exact ihb u hu
        · rw [List.mem_singleton.mp hu]
          omega
      · rcases iha with iha | ⟨u, hu, hsu⟩
        · exact Or.inl iha
        · exact Or.inr ⟨u, List.mem_append_left _ hu, hsu⟩

theorem selectGuess_eq (S : Finset Code) (codes : List Code) :
    selectGuess S codes =
      (let ms := codes.filter fun u => decide (scoreOf S u = (minimaxGuesses S codes).1)
       let ms_in := ms.filter fun g => decide (g ∈ S)
       if ms_in.isEmpty then ms.head? else ms_in.head?) := by
  obtain ⟨-, -, hd, -⟩ := minimaxGuesses_spec S codes
  simp only [selectGuess]
  rcases hd with hd | ⟨h, t, hml, hd⟩
  · rw [hd]
  · rw [hd, hml]
    by_cases hp : (decide (h ∈ S)) = true
    · simp [List.filter_cons, hp]
    · simp [List.filter_cons, hp]

theorem scoreOf_singleton (c u : Code) : scoreOf {c} u = 0 := by
  simp [scoreOf, maxHit, hitCount, Finset.filter_singleton]

theorem selectGuess_singleton (c : Code) (hc : c ∈ allCodes) :
    selectGuess {c} allCodes = some c := by
  rw [selectGuess_eq]
  obtain ⟨-, ha, -, -⟩ := minimaxGuesses_spec {c} allCodes
  have hm : (minimaxGuesses {c} allCodes).1 = 0 := by
    rcases ha with h | ⟨u, _, hu⟩
    · exact h
    · rw [← hu, scoreOf_singleton]
  have hms : (allCodes.filter fun u =>
      decide (scoreOf {c} u = (minimaxGuesses {c} allCodes).1)) = allCodes := by
    refine List.filter_eq_self.mpr fun u _ => ?_
    simp [scoreOf_singleton, hm]
  simp only [hms]
  have hpred : (fun g => decide (g ∈ ({c} : Finset Code))) = fun g => decide (g = c) := by
    funext g
    simp [Finset.mem_singleton]
  simp only [hpred]
  rw [filter_eq_self_singleton c allCodes allCodes_nodup hc]
  simp

theorem guess_snd_eq (b : ComputerCodeBreaker) (lg : Code) (answer : Feedback)
    (h : b.last_guess = some lg)
    (hne : ¬(b.S.filter fun c => compute_answer lg c = answer) = ∅) :
    (b.guess answer).2 =
      selectGuess (b.S.filter fun c => compute_answer lg c = answer) b.all_codes := by
  obtain ⟨ac, S0, last⟩ := b
  simp only at h hne
  subst h
  rw [guess_some_eq]
  simp only
  rw [if_neg hne]
  cases hsel : selectGuess (S0.filter fun c => compute_answer lg c = answer) ac <;>
    simp [hsel]

theorem guess_singleton (b : ComputerCodeBreaker) (lg c : Code) (answer : Feedback)
    (h1 : b.last_guess = some lg) (h2 : b.all_codes = allCodes)
    (h3 : (b.S.filter fun x => compute_answer lg x = answer) = {c})
    (hc : c.length = 4) :
    b.guess answer = (⟨allCodes, {c}, some c⟩, some c) := by
  obtain ⟨ac, S0, last⟩ := b
  simp only at h1 h2 h3
  subst h1
  subst h2
  rw [guess_some_eq]
  simp only [h3]
  rw [if_neg (by simp : ¬({c} : Finset Code) = ∅)]
  rw [selectGuess_singleton c ((mem_allCodes c).2 hc)]

theorem selectGuess_allCodes_isSome (S : Finset Code) :
    ∃ g, selectGuess S allCodes = some g := by
  rw [selectGuess_eq]
  obtain ⟨-, -, -, hne⟩ := minimaxGuesses_spec S allCodes
  have hml := hne allCodes_ne_nil
  obtain ⟨x, xs, hx⟩ := List.exists_cons_of_ne_nil hml
  simp only
  rw [hx]
  by_cases hin : ((x :: xs).filter fun g => decide (g ∈ S)).isEmpty = true
  · exact ⟨x, by rw [if_pos hin]; rfl⟩
  · have hne2 : ((x :: xs).filter fun g => decide (g ∈ S)) ≠ [] := by
      intro hnil
      rw [hnil] at hin
      exact hin rfl
    obtain ⟨y, ys, hy⟩ := List.exists_cons_of_ne_nil hne2
    exact ⟨y, by rw [if_neg hin, hy]; rfl⟩

theorem selectGuess_props (S : Finset Code) (g : Code)
    (hsel : selectGuess S allCodes = some g) :
    g ∈ allCodes ∧ (∀ u ∈ allCodes, scoreOf S u ≤ scoreOf S g) ∧
      ((∃ u ∈ allCodes, u ∈ S ∧ ∀ v ∈ allCodes, scoreOf S v ≤ scoreOf S u) →
        g ∈ S) ∧
      (let ms := allCodes.filter fun u => decide (scoreOf S u = scoreOf S g)
       let ms_in := ms.filter fun u => decide (u ∈ S)
       (if ms_in.isEmpty then ms.head? else ms_in.head?) = some g) := by
  rw [selectGuess_eq] at hsel
  simp only at hsel
  obtain ⟨hb, -, -, -⟩ := minimaxGuesses_spec S allCodes
  by_cases hin : ((allCodes.filter fun u =>
      decide (scoreOf S u = (minimaxGuesses S allCodes).1)).filter fun u =>
        decide (u ∈ S)).isEmpty = true
  · rw [if_pos hin] at hsel
    have hgml : g ∈ allCodes.filter fun u =>
        decide (scoreOf S u = (minimaxGuesses S allCodes).1) :=
      List.mem_of_mem_head? (Option.mem_def.mpr hsel)
    obtain ⟨hgall, hgm0⟩ := List.mem_filter.mp hgml
    have hgm : scoreOf S g = (minimaxGuesses S allCodes).1 := of_decide_eq_true hgm0
    refine ⟨hgall, fun u hu => by rw [hgm]; exact hb u hu, ?_, ?_⟩
    · rintro ⟨u, hu, huS, humax⟩
      exfalso
      have hum : scoreOf S u = (minimaxGuesses S allCodes).1 :=
        le_antisymm (hb u hu) (by rw [← hgm]; exact humax g hgall)
      have humem : u ∈ (allCodes.filter fun v =>
          decide (scoreOf S v = (minimaxGuesses S allCodes).1)).filter fun v =>
            decide (v ∈ S) :=
        List.mem_filter.mpr ⟨List.mem_filter.mpr ⟨hu, decide_eq_true hum⟩,
          decide_eq_true huS⟩
      rw [List.isEmpty_iff] at hin
      rw [hin] at humem
      exact absurd humem (List.not_mem_nil u)
    · have hin' := hin
      have hsel' := hsel
      rw [← hgm] at hin' hsel'
      simp only
      rw [if_pos hin']
      exact hsel'
  · rw [if_neg hin] at hsel
    have hgin : g ∈ (allCodes.filter fun u =>
        decide (scoreOf S u = (minimaxGuesses S allCodes).1)).filter fun u =>
          decide (u ∈ S) :=
      List.mem_of_mem_head? (Option.mem_def.mpr hsel)
    obtain ⟨hgml, hgS0⟩ := List.mem_filter.mp hgin
    obtain ⟨hgall, hgm0⟩ := List.mem_filter.mp hgml
    have hgm : scoreOf S g = (minimaxGuesses S allCodes).1 := of_decide_eq_true hgm0
    have hgS : g ∈ S := of_decide_eq_true hgS0
    refine ⟨hgall, fun u hu => by rw [hgm]; exact hb u hu, fun _ => hgS, ?_⟩
    have hin' := hin
    have hsel' := hsel
    rw [← hgm] at hin' hsel'
    simp only
    rw [if_neg hin']
    exact hsel'

/-- Claim C4: whenever `guess(answer)` is called with a recorded last guess and
the filtered candidate set `S'` is non-empty, the returned guess `g` maximises
`score(g) = |S'| - max bucket count` over all 1296 codes of the Universe, is a
member of `S'` whenever some maximiser lies in `S'`, and is the first
applicable maximiser in the fixed Universe enumeration order. -/
theorem C4_minimax_selection (b : ComputerCodeBreaker) (lg : Code)
    (answer : Feedback) (S' : Finset Code) (h1 : b.last_guess = some lg)
    (h2 : b.all_codes = allCodes)
    (hS : S' = b.S.filter fun c => compute_answer lg c = answer)
    (h3 : ¬S' = ∅) :
    ∃ g, (b.guess answer).2 = some g ∧
      (∀ u ∈ allCodes, scoreOf S' u ≤ scoreOf S' g) ∧
      ((∃ u ∈ allCodes, u ∈ S' ∧ ∀ v ∈ allCodes, scoreOf S' v ≤ scoreOf S' u) →
        g ∈ S') ∧
      (let ms := allCodes.filter fun u => decide (scoreOf S' u = scoreOf S' g)
       let ms_in := ms.filter fun u => decide (u ∈ S')
       (if ms_in.isEmpty then ms.head? else ms_in.head?) = some g) := by
  have hg2 : (b.guess answer).2 = selectGuess S' allCodes := by
    rw [guess_snd_eq b lg answer h1 (by rw [← hS]; exact h3), ← hS, h2]
  obtain ⟨g, hsel⟩ := selectGuess_allCodes_isSome S'
  obtain ⟨-, hmax, hmem, hfirst⟩ := selectGuess_props S' g hsel
  exact ⟨g, by rw [hg2, hsel], hmax, hmem, hfirst⟩

theorem C4_minimax_selection_witness :
    ∃ g,
      (ComputerCodeBreaker.guess ⟨allCodes, {([2, 2, 3, 3] : Code)}, some AABB⟩
          (0, 0)).2 = some g ∧
        (∀ u ∈ allCodes,
          scoreOf {([2, 2, 3, 3] : Code)} u ≤ scoreOf {([2, 2, 3, 3] : Code)} g) ∧
        ((∃ u ∈ allCodes, u ∈ ({([2, 2, 3, 3] : Code)} : Finset Code) ∧
            ∀ v ∈ allCodes,
              scoreOf {([2, 2, 3, 3] : Code)} v ≤ scoreOf {([2, 2, 3, 3] : Code)} u) →
          g ∈ ({([2, 2, 3, 3] : Code)} : Finset Code)) ∧
        (let ms := allCodes.filter fun u =>
          decide (scoreOf {([2, 2, 3, 3] : Code)} u = scoreOf {([2, 2, 3, 3] : Code)} g)
         let ms_in := ms.filter fun u => decide (u ∈ ({([2, 2, 3, 3] : Code)} : Finset Code))
         (if ms_in.isEmpty then ms.head? else ms_in.head?) = some g) :=
  C4_minimax_selection ⟨allCodes, {([2, 2, 3, 3] : Code)}, some AABB⟩ AABB (0, 0)
    {([2, 2, 3, 3] : Code)} rfl rfl (by decide) (by decide)

/-- Claim C6: if after filtering exactly one candidate `c` (a length-4 code)
remains and the supplied feedback was not the perfect match, `guess()` returns
that unique remaining candidate as the forced final guess. -/
theorem C6_forced_final_guess (b : ComputerCodeBreaker) (lg c : Code)
    (answer : Feedback) (h1 : b.last_guess = some lg) (h2 : b.all_codes = allCodes)
    (h3 : (b.S.filter fun x => compute_answer lg x = answer) = {c})
    (hc : c.length = 4) (_h4 : ¬answer = (4, 0)) :
    (b.guess answer).2 = some c := by
  rw [guess_singleton b lg c answer h1 h2 h3 hc]

theorem C6_forced_final_guess_witness :
    (ComputerCodeBreaker.guess ⟨allCodes, {([2, 2, 3, 3] : Code)}, some AABB⟩
        (0, 0)).2 = some [2, 2, 3, 3] :=
  C6_forced_final_guess ⟨allCodes, {([2, 2, 3, 3] : Code)}, some AABB⟩ AABB
    [2, 2, 3, 3] (0, 0) rfl rfl (by decide) (by decide) (by decide)

/-- Claim C5, counterexample to the `SOLVED` clause: in a state where the last
guess `AABB` was answered with the perfect-match feedback `(4, 0)` (so the
session is solved), calling `guess((4, 0))` does not fail: it silently returns
the same guess again — and so does a second such call. -/
theorem C5_counterexample_solved :
    (ComputerCodeBreaker.guess ⟨allCodes, {AABB}, some AABB⟩ (4, 0)).2 =
        some AABB ∧
      ((ComputerCodeBreaker.guess ⟨allCodes, {AABB}, some AABB⟩ (4, 0)).1.guess
          (4, 0)).2 = some AABB := by
  have h := guess_singleton ⟨allCodes, {AABB}, some AABB⟩ AABB AABB (4, 0) rfl rfl
    (by decide) (by decide)
  constructor
  · rw [h]
  · rw [h]
    simp only
    rw [h]

/-- Claim C5 (amended): `guess(feedback)` fails when called before
`initial_guess()` (with the state unchanged), fails whenever filtering leaves
the candidate set empty (the emptied set is stored), and fails on every call
whose stored candidate set is already empty — in particular on every call
after a previous exhausted failure.  (The original claim also required failure
after the perfect-match feedback; the code instead silently returns the last
guess again, see the counterexample.) -/
theorem C5_amended_failures (b : ComputerCodeBreaker) (answer : Feedback) :
    (b.last_guess = none → b.guess answer = (b, none)) ∧
      (∀ lg, b.last_guess = some lg →
        (b.S.filter fun c => compute_answer lg c = answer) = ∅ →
        (b.guess answer).2 = none ∧ (b.guess answer).1.S = ∅) ∧
      (b.S = ∅ → (b.guess answer).2 = none) := by
  refine ⟨fun h => guess_eq_of_none b answer h, fun lg h hfe => ?_, fun hS => ?_⟩
  · obtain ⟨ac, S0, last⟩ := b
    simp only at h hfe
    subst h
    rw [guess_some_eq]
    simp only [hfe]
    simp
  · cases hl : b.last_guess with
    | none => rw [guess_eq_of_none b answer hl]
    | some lg =>
      obtain ⟨ac, S0, last⟩ := b
      simp only at hl hS
      subst hl
      subst hS
      rw [guess_some_eq]
      simp [Finset.filter_empty]

theorem C5_amended_failures_witness :
    (ComputerCodeBreaker.guess ⟨allCodes, allCodes.toFinset, none⟩ (0, 0) =
        (⟨allCodes, allCodes.toFinset, none⟩, none)) ∧
      ((ComputerCodeBreaker.guess ⟨[AABB], {AABB}, some AABB⟩ (0, 1)).2 = none ∧
        (ComputerCodeBreaker.guess ⟨[AABB], {AABB}, some AABB⟩ (0, 1)).1.S = ∅) ∧
      (ComputerCodeBreaker.guess ⟨[AABB], (∅ : Finset Code), some AABB⟩ (0, 0)).2 =
        none :=
  ⟨(C5_amended_failures ⟨allCodes, allCodes.toFinset, none⟩ (0, 0)).1 rfl,
    (C5_amended_failures ⟨[AABB], {AABB}, some AABB⟩ (0, 1)).2.1 AABB rfl (by decide),
    (C5_amended_failures ⟨[AABB], (∅ : Finset Code), some AABB⟩ (0, 0)).2.2 rfl⟩

end Mastermind
